import Mathlib

/-!
# Verification of the euclid-sequencer-plus core

Shallow embedding of the repository's core algorithms:

* `src/utils/euclidAlgorithm.ts` — `generateEuclidPattern`, `rotate`,
  `applyHalfBias01` (minimal-move variant), `countHits`, `rankedHits`,
  `rankedEmpties`, `distanceToNearestHit`.
* `src/hooks/useAudio.ts` — `nextStep`, `schedule`, `gcd`, `lcm`,
  `timeSignatureToSteps`, `calculateCycleLength`, `parseTimeSignature`.

JS number arithmetic on the integer-valued quantities (steps, hits,
rotation, indices) is modelled with `Int`/`Nat`; tempo, swing, bias and
clock times are modelled with exact rational arithmetic (`ℚ`).  Arrays
are modelled as lists; a JS read `arr[i]` of an in-bounds index is
`List.getD arr i 0`, and the write `arr[i] = v` is `List.set` (all writes
performed by the source are in bounds).  `Array.prototype.sort` with the
source's total comparators is modelled by insertion sort, which produces
the same (unique) sorted order.
-/

section
-- Batteries marks the rational-number operations irreducible, which blocks
-- kernel evaluation of the embedded code on concrete inputs; restore
-- definitional transparency for this development.
attribute [local semireducible] Rat.mul Rat.inv Rat.add Rat.sub

namespace EuclidSeq

/-- JS `Math.round`: round half toward positive infinity. -/
def jsRound (q : ℚ) : Int := Rat.floor (q + 1/2)

/-- Sorted insertion, helper for `sortBy`. -/
def insertBy (le : α → α → Bool) (a : α) : List α → List α
  | [] => [a]
  | b :: bs => if le a b then a :: b :: bs else b :: insertBy le a bs

/-- Insertion sort; models `Array.prototype.sort` for the total
comparators used by the source (strict order with index tie-break). -/
def sortBy (le : α → α → Bool) : List α → List α
  | [] => []
  | a :: as => insertBy le a (sortBy le as)

/-- `distanceToNearestHit` from `euclidAlgorithm.ts`: minimum `|idx - index|`
over positions `idx` in `[start, start+len)` holding a hit (optionally
excluding `index` itself); `len` when no such hit exists (the source
returns `len` when its running minimum is still `Infinity`). -/
def distanceToNearestHit (arr : List Nat) (index start len : Nat)
    (excludeSelf : Bool) : Nat :=
  let dists := (List.range len).filterMap (fun i =>
    let idx := start + i
    if arr.getD idx 0 == 1 && !(excludeSelf && idx == index) then
      some (Nat.dist idx index)
    else none)
  (dists.min?).getD len

/-- `rankedHits` from `euclidAlgorithm.ts`: hit positions in
`[start, start+len)` sorted by ascending crowding score, ties by index. -/
def rankedHits (arr : List Nat) (start len : Nat) : List Nat :=
  let hits := (List.range len).filterMap (fun i =>
    let idx := start + i
    if arr.getD idx 0 == 1 then
      some (idx, distanceToNearestHit arr idx start len true)
    else none)
  (sortBy (fun a b => decide (a.2 < b.2) || (a.2 == b.2 && decide (a.1 ≤ b.1))) hits).map
    (fun x => x.1)

/-- `rankedEmpties` from `euclidAlgorithm.ts`: empty positions in
`[start, start+len)` sorted by descending openness score, ties by index. -/
def rankedEmpties (arr : List Nat) (start len : Nat) : List Nat :=
  let empties := (List.range len).filterMap (fun i =>
    let idx := start + i
    if arr.getD idx 0 == 0 then
      some (idx, distanceToNearestHit arr idx start len false)
    else none)
  (sortBy (fun a b => decide (b.2 < a.2) || (a.2 == b.2 && decide (a.1 ≤ b.1))) empties).map
    (fun x => x.1)

/-- `countHits` from `euclidAlgorithm.ts`: number of positions `start + i`,
`i < len`, holding value `1`. -/
def countHits (arr : List Nat) (start len : Nat) : Nat :=
  (List.range len).countP (fun i => arr.getD (start + i) 0 == 1)

/-- The `for (let i = 0; i < moves; i++)` loop of `applyHalfBias01`: each
iteration recomputes `rankedHits`/`rankedEmpties` on the current array,
breaks when either is empty, and otherwise clears the first ranked hit and
sets the first ranked empty. -/
def biasMoveLoop (sourceStart sourceLen destStart destLen : Nat) :
    Nat → List Nat → List Nat
  | 0, out => out
  | k + 1, out =>
    match rankedHits out sourceStart sourceLen,
          rankedEmpties out destStart destLen with
    | sourceIndex :: _, destIndex :: _ =>
      biasMoveLoop sourceStart sourceLen destStart destLen k
        ((out.set sourceIndex 0).set destIndex 1)
    | _, _ => out

/-- `applyHalfBias01` from `euclidAlgorithm.ts` (minimal-move variant):
moves `|frontHits - targetFront|` hits between the front half
`[0, floor(n/2))` and the back half, where
`targetFront = round(hits * (1 - bias01))`. -/
def applyHalfBias01 (arr : List Nat) (bias01 : ℚ) : List Nat :=
  let n := arr.length
  let half := n / 2
  let hits := countHits arr 0 n
  let frontRatio : ℚ := 1 - bias01
  let targetFront : Int := jsRound ((hits : ℚ) * frontRatio)
  let out := arr
  let frontHits := countHits out 0 half
  if (frontHits : Int) = targetFront then out
  else
    let moveFromFront := targetFront < (frontHits : Int)
    let sourceStart := if moveFromFront then 0 else half
    let sourceLen := if moveFromFront then half else n - half
    let destStart := if moveFromFront then half else 0
    let destLen := if moveFromFront then n - half else half
    let moves := ((frontHits : Int) - targetFront).natAbs
    biasMoveLoop sourceStart sourceLen destStart destLen moves out

/-- `rotate` from `euclidAlgorithm.ts`.  The source computes
`shift = amount % n` (JS truncated remainder), adds `n` if negative, and
scatters `out[(i + shift) % n] = arr[i]`; for `0 < shift < n` that places
the last `shift` entries of `arr` first, i.e.
`arr.drop (n - shift) ++ arr.take (n - shift)`. -/
def rotate (arr : List Nat) (amount : Int) : List Nat :=
  let n := arr.length
  if n = 0 then arr
  else
    let shift0 := Int.tmod amount (n : Int)
    let shift := (if shift0 < 0 then shift0 + (n : Int) else shift0).toNat
    if shift = 0 then arr
    else arr.drop (n - shift) ++ arr.take (n - shift)

/-- The base-placement loop of `generateEuclidPattern`:
`result[i] = ((i * hits) % steps) < hits ? 1 : 0`. -/
def euclidBase (s h : Nat) : List Nat :=
  (List.range s).map (fun i => if (i * h) % s < h then 1 else 0)

/-- `generateEuclidPattern` from `euclidAlgorithm.ts`. -/
def generateEuclidPattern (steps hits : Int) (bias : ℚ) (rotation : Int) :
    List Bool :=
  if steps ≤ 0 ∨ hits < 0 ∨ hits > steps then
    List.replicate (max 0 steps).toNat false
  else
    let s := steps.toNat
    let h := hits.toNat
    let base := euclidBase s h
    let biased := if bias ≠ 1/2 then applyHalfBias01 base bias else base
    let rotated := if rotation ≠ 0 then rotate biased rotation else biased
    rotated.map (fun v => decide (v = 1))

/-! ## Scheduler (`src/hooks/useAudio.ts`) -/

/-- The per-track data consumed by the scheduling tick (`Track` from
`types.ts`, restricted to the fields `schedule` reads). -/
structure Track where
  id : String
  steps : Nat
  pattern : List Bool
  volume : ℚ
  muted : Bool
  solo : Bool
deriving DecidableEq

/-- A `(trackId, velocity, time)` call to `DrumMachine.trigger`. -/
abbrev Trigger := String × ℚ × ℚ

/-- `nextStep` from `useAudio.ts`: clamps bpm to `[40, 300]`, converts the
swing percentage to a ratio capped at `0.30`, computes the sixteenth-note
interval from the parity of the step index *before* advancing, adds it to
`nextEventTime`, then advances the index modulo `max 1 cycleLength`. -/
structure SchedState where
  currentStepIndex : Nat
  nextEventTime : ℚ
deriving DecidableEq

def nextStep (bpm swing : ℚ) (cycleLength : Nat) (st : SchedState) :
    SchedState :=
  let bpmClamped := max 40 (min 300 bpm)
  let swingRatio := max 0 (min (3/10) (swing / 100 * (3/10)))
  let base := 60 / bpmClamped / 4
  let even := st.currentStepIndex % 2 = 0
  let interval := base * (if even then 1 + swingRatio else 1 - swingRatio)
  let cycle := max 1 cycleLength
  { currentStepIndex := (st.currentStepIndex + 1) % cycle,
    nextEventTime := st.nextEventTime + interval }

/-- `schedule` from `useAudio.ts`, restricted to its audio output: the list
of `trigger` calls issued for global step `step` scheduled at `time` when
the clock reads `now`.  (`pattern[step % track.steps]` for `track.steps = 0`
is an `undefined` read in JS, hence falsy; the model's `% 0` convention
agrees with JS here because every caller keeps `pattern.length = steps`,
making the read out of bounds either way.) -/
def schedule (tracks : List Track) (step : Nat) (time now : ℚ) :
    List Trigger :=
  let t := max time (now + 1/1000)
  let hasSolo := tracks.any (fun track => track.solo)
  tracks.foldl (fun acc track =>
    let stepInPattern := step % track.steps
    let shouldPlay := !track.muted && track.pattern.getD stepInPattern false &&
      (!hasSolo || track.solo)
    if shouldPlay then acc ++ [(track.id, track.volume / 100, t)] else acc) []

/-! ## Cycle alignment (`src/hooks/useAudio.ts`) -/

/-- `String.prototype.split` on a single-character separator. -/
def splitOnSlash : List Char → List (List Char)
  | [] => [[]]
  | c :: rest =>
    if c = '/' then [] :: splitOnSlash rest
    else
      match splitOnSlash rest with
      | h :: t => (c :: h) :: t
      | [] => [[c]]

/-- Value of the leading decimal-digit run; `none` when there is none
(`parseInt` returns `NaN` then). -/
def digitsValue (cs : List Char) : Option Nat :=
  let ds := cs.takeWhile Char.isDigit
  if ds.isEmpty then none
  else some (ds.foldl (fun acc c => acc * 10 + (c.toNat - '0'.toNat)) 0)

/-- JS `parseInt(str, 10)`: skip leading whitespace, read an optional sign
and the longest digit run, ignore the rest; `none` models `NaN`. -/
def jsParseInt (cs : List Char) : Option Int :=
  match cs.dropWhile Char.isWhitespace with
  | '-' :: rest => (digitsValue rest).map (fun v => -(v : Int))
  | '+' :: rest => (digitsValue rest).map (fun v => (v : Int))
  | rest => (digitsValue rest).map (fun v => (v : Int))

/-- `parseTimeSignature` from `useAudio.ts`: split on `/`, `parseInt` the
first two parts, fail on `NaN` (`Number.isFinite` check) or a zero
denominator. -/
def parseTimeSignature (s : String) : Option (Int × Int) :=
  let parts := splitOnSlash s.data
  match parts.head?.bind jsParseInt, (parts.get? 1).bind jsParseInt with
  | some numerator, some denominator =>
    if denominator = 0 then none else some (numerator, denominator)
  | _, _ => none

/-- `timeSignatureToSteps` from `useAudio.ts`; `Math.floor(16 / d)` on an
integer `d ≠ 0` is floor division, i.e. `Int.fdiv`. -/
def timeSignatureToSteps (s : String) : Int :=
  match parseTimeSignature s with
  | none => 16
  | some (numerator, denominator) =>
    let stepsPerBeat := max 1 ((16 : Int).fdiv denominator)
    max 1 (numerator * stepsPerBeat)

/-- `gcd` from `useAudio.ts`: Euclid's loop on the absolute values,
then `x || 1`. -/
def gcd (a b : Int) : Int :=
  let x := (Nat.gcd a.natAbs b.natAbs : Int)
  if x = 0 then 1 else x

/-- `lcm` from `useAudio.ts`: `Math.abs(a * b) / gcd(a, b)` (the division
is exact on every input the source feeds it). -/
def lcm (a b : Int) : Int :=
  ((a * b).natAbs : Int) / gcd a b

/-- `calculateCycleLength` from `useAudio.ts` (`Number.isFinite` never
fails on the integer model; `filter(Boolean)` drops zeroes). -/
def calculateCycleLength (tracks : List Track) (timeSignature : String) :
    Int :=
  let trackSteps := (tracks.map (fun track => (track.steps : Int))).filter
    (fun steps => decide (0 < steps))
  let signatureSteps := timeSignatureToSteps timeSignature
  let lengths := (trackSteps ++ [signatureSteps]).filter (fun v => decide (v ≠ 0))
  match lengths with
  | [] => 16
  | x :: xs => xs.foldl lcm x

/-- The least common multiple of a list of naturals (the specification's
"LCM of all track step counts together with impliedSteps"). -/
def lcmList (l : List Nat) : Nat := l.foldr Nat.lcm 1

/-! ## Basic lemmas about the sorting and ranking helpers -/

theorem mem_insertBy {le : α → α → Bool} {a x : α} {l : List α} :
    a ∈ insertBy le x l ↔ a = x ∨ a ∈ l := by
  induction l with
  | nil => simp [insertBy]
  | cons b bs ih =>
    by_cases h : le x b = true
    · simp [insertBy, h]
    · simp only [insertBy, h, if_neg, Bool.not_eq_true] at *
      simp [List.mem_cons, ih]
      tauto

theorem mem_sortBy {le : α → α → Bool} {a : α} {l : List α} :
    a ∈ sortBy le l ↔ a ∈ l := by
  induction l with
  | nil => simp [sortBy]
  | cons b bs ih => simp [sortBy, mem_insertBy, ih]

theorem getD_ne_default_lt_length {l : List α} {i : Nat} {d : α}
    (h : l.getD i d ≠ d) : i < l.length := by
  by_contra hi
  exact h (List.getD_eq_default l d (Nat.le_of_not_lt hi))

/-- Every element of `rankedHits arr start len` is a position of
`[start, start + len)` holding a `1`. -/
theorem rankedHits_mem {arr : List Nat} {start len i : Nat}
    (h : i ∈ rankedHits arr start len) :
    arr.getD i 0 = 1 ∧ start ≤ i ∧ i < start + len := by
  simp only [rankedHits, List.mem_map] at h
  obtain ⟨pr, hpr, hfst⟩ := h
  rw [mem_sortBy] at hpr
  simp only [List.mem_filterMap, List.mem_range] at hpr
  obtain ⟨j, hj, hsome⟩ := hpr
  by_cases hc : (arr.getD (start + j) 0 == 1) = true
  · rw [if_pos hc, Option.some_inj] at hsome
    subst hsome
    simp only [← hfst]
    exact ⟨by simpa using hc, Nat.le_add_right _ _,
      Nat.add_lt_add_left hj _⟩
  · rw [if_neg hc] at hsome
    exact absurd hsome (by simp)

/-- Every element of `rankedEmpties arr start len` is a position of
`[start, start + len)` holding a `0`. -/
theorem rankedEmpties_mem {arr : List Nat} {start len i : Nat}
    (h : i ∈ rankedEmpties arr start len) :
    arr.getD i 0 = 0 ∧ start ≤ i ∧ i < start + len := by
  simp only [rankedEmpties, List.mem_map] at h
  obtain ⟨pr, hpr, hfst⟩ := h
  rw [mem_sortBy] at hpr
  simp only [List.mem_filterMap, List.mem_range] at hpr
  obtain ⟨j, hj, hsome⟩ := hpr
  by_cases hc : (arr.getD (start + j) 0 == 0) = true
  · rw [if_pos hc, Option.some_inj] at hsome
    subst hsome
    simp only [← hfst]
    exact ⟨by simpa using hc, Nat.le_add_right _ _,
      Nat.add_lt_add_left hj _⟩
  · rw [if_neg hc] at hsome
    exact absurd hsome (by simp)

/-! ## Count and length invariants of the bias move loop -/

theorem count_one_set_zero :
    ∀ (l : List Nat) (i : Nat), l.getD i 0 = 1 →
      (l.set i 0).count 1 + 1 = l.count 1
  | [], i, h => by simp at h
  | a :: l, 0, h => by
    simp only [List.getD_cons_zero] at h
    subst h
    simp [List.count_cons]
  | a :: l, i + 1, h => by
    have ih := count_one_set_zero l i (by simpa using h)
    simp only [List.set_cons_succ, List.count_cons]
    omega

theorem count_one_set_one :
    ∀ (l : List Nat) (i : Nat), i < l.length → l.getD i 0 = 0 →
      (l.set i 1).count 1 = l.count 1 + 1
  | [], i, hi, _ => by simp at hi
  | a :: l, 0, _, h => by
    simp only [List.getD_cons_zero] at h
    subst h
    simp [List.count_cons]
  | a :: l, i + 1, hi, h => by
    have ih := count_one_set_one l i (by simpa using hi) (by simpa using h)
    simp only [List.set_cons_succ, List.count_cons]
    omega

/-- Each iteration of the move loop clears one `1` and sets one `0`, so the
number of `1` entries is unchanged (the destination range must be in
bounds, as it is at every call site). -/
theorem biasMoveLoop_count (sourceStart sourceLen destStart destLen : Nat) :
    ∀ (k : Nat) (out : List Nat), destStart + destLen ≤ out.length →
      (biasMoveLoop sourceStart sourceLen destStart destLen k out).count 1 =
        out.count 1
  | 0, out, _ => rfl
  | k + 1, out, hb => by
    rw [biasMoveLoop]
    cases hs : rankedHits out sourceStart sourceLen with
    | nil => cases he : rankedEmpties out destStart destLen <;> rfl
    | cons si rest =>
      cases he : rankedEmpties out destStart destLen with
      | nil => rfl
      | cons di rest' =>
        have hsi : out.getD si 0 = 1 ∧ sourceStart ≤ si ∧
            si < sourceStart + sourceLen :=
          rankedHits_mem (hs ▸ List.mem_cons_self si rest)
        have hdi : out.getD di 0 = 0 ∧ destStart ≤ di ∧
            di < destStart + destLen :=
          rankedEmpties_mem (he ▸ List.mem_cons_self di rest')
        have hne : si ≠ di := fun hEq => by
          rw [hEq, hdi.1] at hsi
          exact absurd hsi.1 (by decide)
        have hdlt : di < out.length := lt_of_lt_of_le hdi.2.2 hb
        have h1 : (out.set si 0).getD di 0 = 0 := by
          rw [List.getD_eq_getElem?_getD, List.getElem?_set_ne hne,
            ← List.getD_eq_getElem?_getD]
          exact hdi.1
        have h2 : di < (out.set si 0).length := by
          rw [List.length_set]; exact hdlt
        have hrec := biasMoveLoop_count sourceStart sourceLen destStart destLen
          k ((out.set si 0).set di 1)
          (by rw [List.length_set, List.length_set]; exact hb)
        rw [hrec, count_one_set_one _ _ h2 h1]
        have := count_one_set_zero out si hsi.1
        omega

theorem biasMoveLoop_length (sourceStart sourceLen destStart destLen : Nat) :
    ∀ (k : Nat) (out : List Nat),
      (biasMoveLoop sourceStart sourceLen destStart destLen k out).length =
        out.length
  | 0, out => rfl
  | k + 1, out => by
    rw [biasMoveLoop]
    cases hs : rankedHits out sourceStart sourceLen with
    | nil => cases he : rankedEmpties out destStart destLen <;> rfl
    | cons si rest =>
      cases he : rankedEmpties out destStart destLen with
      | nil => rfl
      | cons di rest' =>
        rw [biasMoveLoop_length sourceStart sourceLen destStart destLen k,
          List.length_set, List.length_set]

/-- The bias redistribution step never changes the number of `1` entries. -/
theorem applyHalfBias01_count (arr : List Nat) (bias01 : ℚ) :
    (applyHalfBias01 arr bias01).count 1 = arr.count 1 := by
  rw [applyHalfBias01]
  set c := jsRound ((countHits arr 0 arr.length : ℚ) * (1 - bias01)) <
    (countHits arr 0 (arr.length / 2) : Int) with hc
  by_cases h : ((countHits arr 0 (arr.length / 2) : Int) =
      jsRound ((countHits arr 0 arr.length : ℚ) * (1 - bias01)))
  · rw [if_pos h]
  · rw [if_neg h]
    show (biasMoveLoop (if c then 0 else arr.length / 2)
      (if c then arr.length / 2 else arr.length - arr.length / 2)
      (if c then arr.length / 2 else 0)
      (if c then arr.length - arr.length / 2 else arr.length / 2)
      (((countHits arr 0 (arr.length / 2) : Int) -
        jsRound ((countHits arr 0 arr.length : ℚ) * (1 - bias01))).natAbs)
      arr).count 1 = arr.count 1
    by_cases hdir : c
    · rw [if_pos hdir, if_pos hdir, if_pos hdir, if_pos hdir]
      exact biasMoveLoop_count _ _ _ _ _ arr (by omega)
    · rw [if_neg hdir, if_neg hdir, if_neg hdir, if_neg hdir]
      exact biasMoveLoop_count _ _ _ _ _ arr (by omega)

theorem applyHalfBias01_length (arr : List Nat) (bias01 : ℚ) :
    (applyHalfBias01 arr bias01).length = arr.length := by
  rw [applyHalfBias01]
  set c := jsRound ((countHits arr 0 arr.length : ℚ) * (1 - bias01)) <
    (countHits arr 0 (arr.length / 2) : Int) with hc
  by_cases h : ((countHits arr 0 (arr.length / 2) : Int) =
      jsRound ((countHits arr 0 arr.length : ℚ) * (1 - bias01)))
  · rw [if_pos h]
  · rw [if_neg h]
    show (biasMoveLoop (if c then 0 else arr.length / 2)
      (if c then arr.length / 2 else arr.length - arr.length / 2)
      (if c then arr.length / 2 else 0)
      (if c then arr.length - arr.length / 2 else arr.length / 2)
      (((countHits arr 0 (arr.length / 2) : Int) -
        jsRound ((countHits arr 0 arr.length : ℚ) * (1 - bias01))).natAbs)
      arr).length = arr.length
    by_cases hdir : c
    · rw [if_pos hdir, if_pos hdir, if_pos hdir, if_pos hdir]
      exact biasMoveLoop_length _ _ _ _ _ arr
    · rw [if_neg hdir, if_neg hdir, if_neg hdir, if_neg hdir]
      exact biasMoveLoop_length _ _ _ _ _ arr

/-! ## Rotation lemmas -/

theorem natAbs_tmod (a n : Int) : (a.tmod n).natAbs = a.natAbs % n.natAbs := by
  cases a <;> cases n <;>
    simp only [Int.tmod, Int.natAbs_neg, Int.natAbs_negSucc, Int.natAbs_ofNat] <;>
    rfl

/-- The source's normalization `shift = amount % n; if (shift < 0) shift += n`
(JS truncated remainder) computes the Euclidean remainder. -/
theorem tmod_shift_eq_emod (a : Int) (k : Nat) (hk : 0 < k) :
    (if a.tmod (k : Int) < 0 then a.tmod (k : Int) + (k : Int)
     else a.tmod (k : Int)) = a % (k : Int) := by
  have hkz : (k : Int) ≠ 0 := by exact_mod_cast Nat.pos_iff_ne_zero.mp hk
  have hcong : a.tmod (k : Int) % (k : Int) = a % (k : Int) := by
    have harr : a - (k : Int) * a.tdiv (k : Int) =
        a + (-(a.tdiv (k : Int))) * (k : Int) := by ring
    rw [Int.tmod_def, harr, Int.add_mul_emod_self]
  have habs : (a.tmod (k : Int)).natAbs < k := by
    rw [natAbs_tmod]
    simpa using Nat.mod_lt a.natAbs hk
  have hbounds : -(k : Int) < a.tmod (k : Int) ∧ a.tmod (k : Int) < (k : Int) := by
    constructor <;> omega
  by_cases hneg : a.tmod (k : Int) < 0
  · rw [if_pos hneg]
    have hv : (0 : Int) ≤ a.tmod (k : Int) + k := by omega
    have hv2 : a.tmod (k : Int) + k < (k : Int) := by omega
    rw [← Int.emod_eq_of_lt hv hv2]
    conv_rhs => rw [← hcong]
    rw [← Int.add_mul_emod_self_left (a.tmod (k : Int)) (k : Int) 1, mul_one]
  · rw [if_neg hneg]
    have hv : (0 : Int) ≤ a.tmod (k : Int) := by omega
    rw [← Int.emod_eq_of_lt hv hbounds.2, hcong]

/-- `rotate` agrees with Mathlib's left rotation: rotating right by
`amount` is rotating left by `length - (amount mod length)`. -/
theorem rotate_eq_listRotate (arr : List Nat) (amount : Int)
    (h : arr.length ≠ 0) :
    rotate arr amount =
      arr.rotate (arr.length - (amount % (arr.length : Int)).toNat) := by
  have hk : 0 < arr.length := Nat.pos_of_ne_zero h
  rw [rotate]
  simp only [h, if_false]
  have hsh := tmod_shift_eq_emod amount arr.length hk
  have hm : (amount % (arr.length : Int)).toNat < arr.length := by
    have h1 : 0 ≤ amount % (arr.length : Int) :=
      Int.emod_nonneg amount (by exact_mod_cast h)
    have h2 : amount % (arr.length : Int) < (arr.length : Int) :=
      Int.emod_lt_of_pos amount (by exact_mod_cast hk)
    omega
  rw [hsh]
  by_cases hz : (amount % (arr.length : Int)).toNat = 0
  · rw [if_pos hz, hz, Nat.sub_zero, List.rotate_length]
  · rw [if_neg hz,
      List.rotate_eq_drop_append_take (Nat.sub_le arr.length _)]

theorem rotate_length (arr : List Nat) (amount : Int) :
    (rotate arr amount).length = arr.length := by
  by_cases h : arr.length = 0
  · rw [rotate]
    simp [h]
  · rw [rotate_eq_listRotate arr amount h, List.length_rotate]

theorem rotate_count (arr : List Nat) (amount : Int) (x : Nat) :
    (rotate arr amount).count x = arr.count x := by
  by_cases h : arr.length = 0
  · rw [rotate]
    simp [h]
  · rw [rotate_eq_listRotate arr amount h]
    exact (List.rotate_perm arr _).count_eq x

/-! ## The base pattern has exactly `hits` ones

The placement rule `(i * h) % s < h` marks `i` exactly when the quotient
`(i * h) / s` increases from `((i-1) * h) / s`, so the marks telescope to
`h` over a full cycle. -/

theorem euclid_quot_mono (s h i : Nat) : (i * h) / s ≤ ((i + 1) * h) / s :=
  Nat.div_le_div_right (Nat.mul_le_mul_right h (Nat.le_succ i))

theorem euclid_quot_le (s h i : Nat) (hs : 0 < s) (hh : h ≤ s) :
    ((i + 1) * h) / s ≤ (i * h) / s + 1 := by
  have hsucc : (i + 1) * h = i * h + h := by ring
  have h1 : (i * h + h) / s ≤ (i * h + s) / s := Nat.div_le_div_right (by omega)
  have h2 : (i * h + s) / s = (i * h) / s + 1 := Nat.add_div_right _ hs
  rw [hsucc]
  omega

theorem euclid_cond_iff (s h i : Nat) (hs : 0 < s) (hh : h ≤ s) :
    (((i + 1) * h) % s < h ↔ (i * h) / s < ((i + 1) * h) / s) := by
  have e0 := Nat.div_add_mod (i * h) s
  have e1 := Nat.div_add_mod ((i + 1) * h) s
  have hr : (i * h) % s < s := Nat.mod_lt _ hs
  have hmono := euclid_quot_mono s h i
  have hub := euclid_quot_le s h i hs hh
  have hsucc : (i + 1) * h = i * h + h := by ring
  rcases Nat.lt_or_ge ((i * h) / s) (((i + 1) * h) / s) with hlt | hge
  · have hg1 : ((i + 1) * h) / s = (i * h) / s + 1 := by omega
    rw [hg1] at e1
    have emul : s * ((i * h) / s + 1) = s * ((i * h) / s) + s := by ring
    constructor
    · intro _; exact hlt
    · intro _; omega
  · have hg1 : ((i + 1) * h) / s = (i * h) / s := by omega
    rw [hg1] at e1
    constructor
    · intro hc; omega
    · intro hc; omega

theorem euclid_base_count_aux (s h : Nat) (hs : 0 < s) (hh : h ≤ s)
    (hpos : 0 < h) :
    ∀ m : Nat,
      (List.range (m + 1)).countP (fun i => decide ((i * h) % s < h)) =
        (m * h) / s + 1
  | 0 => by
    have hr1 : List.range 1 = [0] := rfl
    simp [hr1, List.countP_cons, hpos]
  | m + 1 => by
    have ih := euclid_base_count_aux s h hs hh hpos m
    rw [List.range_succ, List.countP_append, ih]
    have hiff := euclid_cond_iff s h m hs hh
    have hub := euclid_quot_le s h m hs hh
    have hmono := euclid_quot_mono s h m
    by_cases hc : ((m + 1) * h) % s < h
    · have h1 : ((m + 1) * h) / s = (m * h) / s + 1 := by
        have := hiff.mp hc
        omega
      simp [List.countP_cons, hc, h1]
    · have h1 : ((m + 1) * h) / s = (m * h) / s := by
        rcases Nat.lt_or_ge ((m * h) / s) (((m + 1) * h) / s) with hlt | hge
        · exact absurd (hiff.mpr hlt) hc
        · omega
      simp [List.countP_cons, hc, h1]

theorem euclid_base_count (s h : Nat) (hs : 0 < s) (hh : h ≤ s) :
    (List.range s).countP (fun i => decide ((i * h) % s < h)) = h := by
  rcases Nat.eq_zero_or_pos h with h0 | hpos
  · subst h0
    simp
  · obtain ⟨s', rfl⟩ : ∃ s', s = s' + 1 := ⟨s - 1, by omega⟩
    obtain ⟨h', rfl⟩ : ∃ h', h = h' + 1 := ⟨h - 1, by omega⟩
    rw [euclid_base_count_aux (s' + 1) (h' + 1) hs hh hpos s']
    have hdiv : s' * (h' + 1) / (s' + 1) = h' := by
      apply Nat.div_eq_of_lt_le
      · have e1 : h' * (s' + 1) = h' * s' + h' := by ring
        have e2 : s' * (h' + 1) = h' * s' + s' := by ring
        omega
      · have e2 : s' * (h' + 1) = h' * s' + s' := by ring
        have e3 : (h' + 1) * (s' + 1) = h' * s' + h' + s' + 1 := by ring
        omega
    omega

theorem euclidBase_count (s h : Nat) (hs : 0 < s) (hh : h ≤ s) :
    (euclidBase s h).count 1 = h := by
  rw [euclidBase, List.count, List.countP_map]
  have hfun : ((fun v => v == 1) ∘
      (fun i => if (i * h) % s < h then (1 : Nat) else 0)) =
      fun i => decide ((i * h) % s < h) := by
    funext i
    by_cases hc : (i * h) % s < h <;> simp [hc]
  rw [hfun, euclid_base_count s h hs hh]

theorem euclidBase_length (s h : Nat) : (euclidBase s h).length = s := by
  rw [euclidBase, List.length_map, List.length_range]

theorem count_true_map_decide (l : List Nat) :
    (l.map (fun v => decide (v = 1))).count true = l.count 1 := by
  rw [List.count, List.countP_map, List.count]
  have hfun : ((fun b => b == true) ∘ (fun v => decide (v = 1))) =
      fun v => v == 1 := by
    funext v
    by_cases hv : v = 1 <;> simp [hv]
  rw [hfun]

/-- Composition law: two JS rotations compose to a single rotation by the
sum normalized into `[0, length)`. -/
theorem rotate_add_emod (p : List Nat) (a b : Int) (h : p.length ≠ 0) :
    rotate (rotate p a) b = rotate p ((a + b) % (p.length : Int)) := by
  have hn : 0 < p.length := Nat.pos_of_ne_zero h
  have hnz : ((p.length : Int)) ≠ 0 := by exact_mod_cast h
  have hna : (((a % (p.length : Int)).toNat : Nat) : Int) =
      a % (p.length : Int) := Int.toNat_of_nonneg (Int.emod_nonneg a hnz)
  have hnb : (((b % (p.length : Int)).toNat : Nat) : Int) =
      b % (p.length : Int) := Int.toNat_of_nonneg (Int.emod_nonneg b hnz)
  have hna_lt : (a % (p.length : Int)).toNat < p.length := by
    have := Int.emod_lt_of_pos a (show (0 : Int) < p.length by exact_mod_cast hn)
    omega
  have hnb_lt : (b % (p.length : Int)).toNat < p.length := by
    have := Int.emod_lt_of_pos b (show (0 : Int) < p.length by exact_mod_cast hn)
    omega
  have hL : rotate (rotate p a) b =
      p.rotate ((p.length - (a % (p.length : Int)).toNat) +
        (p.length - (b % (p.length : Int)).toNat)) := by
    rw [rotate_eq_listRotate p a h,
      rotate_eq_listRotate _ b (by rw [List.length_rotate]; exact h),
      List.length_rotate, List.rotate_rotate]
  have hc_eq : (a + b) % (p.length : Int) =
      ((((a % (p.length : Int)).toNat + (b % (p.length : Int)).toNat) %
        p.length : Nat) : Int) := by
    rw [Int.add_emod, ← hna, ← hnb]
    norm_cast
  have hR : rotate p ((a + b) % (p.length : Int)) =
      p.rotate (p.length -
        (((a % (p.length : Int)).toNat + (b % (p.length : Int)).toNat) %
          p.length)) := by
    rw [rotate_eq_listRotate p _ h, Int.emod_emod, hc_eq, Int.toNat_natCast]
  rw [hL, hR]
  rcases Nat.lt_or_ge
      ((a % (p.length : Int)).toNat + (b % (p.length : Int)).toNat)
      p.length with hlt | hge
  · rw [Nat.mod_eq_of_lt hlt]
    have h2 : (p.length - (a % (p.length : Int)).toNat) +
        (p.length - (b % (p.length : Int)).toNat) =
        p.length + (p.length -
          ((a % (p.length : Int)).toNat + (b % (p.length : Int)).toNat)) := by
      omega
    rw [h2, ← List.rotate_mod p
      (p.length + (p.length -
        ((a % (p.length : Int)).toNat + (b % (p.length : Int)).toNat))),
      Nat.add_mod_left, List.rotate_mod]
  · have h1 : ((a % (p.length : Int)).toNat + (b % (p.length : Int)).toNat) %
        p.length =
        (a % (p.length : Int)).toNat + (b % (p.length : Int)).toNat -
          p.length := by
      rw [Nat.mod_eq_sub_mod hge, Nat.mod_eq_of_lt (by omega)]
    have h2 : (p.length - (a % (p.length : Int)).toNat) +
        (p.length - (b % (p.length : Int)).toNat) =
        p.length - ((a % (p.length : Int)).toNat +
          (b % (p.length : Int)).toNat - p.length) := by
      omega
    rw [h1, h2]

/-- Rotating by the full pattern length is the identity. -/
theorem rotate_full_length (p : List Nat) : rotate p (p.length : Int) = p := by
  by_cases h : p.length = 0
  · rw [rotate]
    simp [h]
  · rw [rotate_eq_listRotate p _ h, Int.emod_self]
    simp [List.rotate_length]

/-! ## Unfolding `generateEuclidPattern` on valid parameters -/

theorem getD_map_range {α : Type} (f : Nat → α) (n i : Nat) (d : α)
    (hi : i < n) : ((List.range n).map f).getD i d = f i := by
  rw [List.getD_eq_getElem?_getD, List.getElem?_map, List.getElem?_range hi]
  rfl

theorem generateEuclidPattern_valid_eq (steps hits : Int) (bias : ℚ)
    (rotation : Int) (h1 : 1 ≤ steps) (h2 : 0 ≤ hits) (h3 : hits ≤ steps) :
    generateEuclidPattern steps hits bias rotation =
      (if rotation ≠ 0 then
        rotate (if bias ≠ 1/2 then
            applyHalfBias01 (euclidBase steps.toNat hits.toNat) bias
          else euclidBase steps.toNat hits.toNat) rotation
       else (if bias ≠ 1/2 then
            applyHalfBias01 (euclidBase steps.toNat hits.toNat) bias
          else euclidBase steps.toNat hits.toNat)).map
        (fun v => decide (v = 1)) := by
  rw [generateEuclidPattern, if_neg (by omega)]

/-! ## Scheduler lemmas -/

theorem foldl_filter_map {α β : Type} (p : α → Bool) (f : α → β) :
    ∀ (l : List α) (acc : List β),
      l.foldl (fun acc x => if p x then acc ++ [f x] else acc) acc =
        acc ++ (l.filter p).map f
  | [], acc => by simp
  | x :: l, acc => by
    by_cases hx : p x = true
    · rw [List.foldl_cons, if_pos hx, foldl_filter_map p f l (acc ++ [f x]),
        List.filter_cons_of_pos hx, List.map_cons, List.append_assoc,
        List.singleton_append]
    · rw [List.foldl_cons, if_neg hx, foldl_filter_map p f l acc,
        List.filter_cons_of_neg (by simpa using hx)]

/-- `schedule` fires exactly the tracks passing the mute/pattern/solo test,
each with velocity `volume / 100` at time `max time (now + 0.001)`. -/
theorem schedule_eq (tracks : List Track) (step : Nat) (time now : ℚ) :
    schedule tracks step time now =
      (tracks.filter (fun track =>
        !track.muted && track.pattern.getD (step % track.steps) false &&
          (!(tracks.any (fun tr => tr.solo)) || track.solo))).map
        (fun track => (track.id, track.volume / 100, max time (now + 1/1000))) := by
  rw [schedule]
  exact (foldl_filter_map _ _ tracks []).trans (List.nil_append _)

/-- The source's swing clamp `max(0, min(0.30, (swing/100)*0.30))` equals
the specification's `clamp(swing/100, 0, 1) * 0.30`. -/
theorem swing_clamp_eq (x : ℚ) :
    max 0 (min (3/10) (x * (3/10))) = max 0 (min 1 x) * (3/10) := by
  rcases le_total x 1 with h1 | h1
  · rw [min_eq_right (by nlinarith), min_eq_right h1]
    rcases le_total x 0 with h0 | h0
    · rw [max_eq_left (by nlinarith), max_eq_left h0, zero_mul]
    · rw [max_eq_right (by nlinarith), max_eq_right h0]
  · rw [min_eq_left (by nlinarith), min_eq_left h1, max_eq_right (by norm_num),
      max_eq_right (by norm_num), one_mul]

/-! ## LCM lemmas for cycle alignment -/

theorem gcd_eq_natGcd (a b : Int) (ha : 0 < a) :
    gcd a b = (Nat.gcd a.natAbs b.natAbs : Int) := by
  rw [gcd]
  have hpos : 0 < Nat.gcd a.natAbs b.natAbs :=
    Nat.gcd_pos_of_pos_left _ (by omega)
  rw [if_neg (by exact_mod_cast Nat.pos_iff_ne_zero.mp hpos)]

theorem lcm_eq_natLcm (a b : Int) (ha : 0 < a) (hb : 0 < b) :
    lcm a b = (Nat.lcm a.toNat b.toNat : Int) := by
  have hA : a.natAbs = a.toNat := by omega
  have hB : b.natAbs = b.toNat := by omega
  rw [lcm, gcd_eq_natGcd a b ha, Int.natAbs_mul, hA, hB, ← Int.ofNat_ediv,
    Nat.lcm]

theorem lcm_pos (a b : Int) (ha : 0 < a) (hb : 0 < b) : 0 < lcm a b := by
  rw [lcm_eq_natLcm a b ha hb]
  exact_mod_cast Nat.lcm_pos (by omega) (by omega)

theorem lcmList_cons (x : Nat) (l : List Nat) :
    lcmList (x :: l) = Nat.lcm x (lcmList l) := rfl

theorem foldl_natLcm (l : List Nat) :
    ∀ a : Nat, l.foldl Nat.lcm a = Nat.lcm a (lcmList l) := by
  induction l with
  | nil => intro a; rw [List.foldl_nil, lcmList, List.foldr_nil, Nat.lcm_one_right]
  | cons x xs ih =>
    intro a
    rw [List.foldl_cons, ih (Nat.lcm a x), lcmList_cons, Nat.lcm_assoc]

theorem foldl_lcm_int (l : List Int) :
    ∀ a : Int, 0 < a → (∀ x ∈ l, 0 < x) →
      l.foldl lcm a = (((l.map Int.toNat).foldl Nat.lcm a.toNat : Nat) : Int) := by
  induction l with
  | nil =>
    intro a ha _
    rw [List.foldl_nil, List.map_nil, List.foldl_nil,
      Int.toNat_of_nonneg (le_of_lt ha)]
  | cons x xs ih =>
    intro a ha hl
    have hx : 0 < x := hl x (List.mem_cons_self x xs)
    have hax : 0 < lcm a x := lcm_pos a x ha hx
    rw [List.foldl_cons, ih (lcm a x) hax (fun y hy => hl y (List.mem_cons_of_mem x hy)),
      List.map_cons, List.foldl_cons]
    have htn : (lcm a x).toNat = Nat.lcm a.toNat x.toNat := by
      rw [lcm_eq_natLcm a x ha hx, Int.toNat_natCast]
    rw [htn]

theorem lcmList_append_singleton (l : List Nat) (a : Nat) :
    lcmList (l ++ [a]) = Nat.lcm a (lcmList l) := by
  induction l with
  | nil => rfl
  | cons x xs ih =>
    rw [List.cons_append, lcmList_cons, ih, lcmList_cons, ← Nat.lcm_assoc,
      Nat.lcm_comm x a, Nat.lcm_assoc]

/-- The `lengths.reduce(lcm)` step on a nonempty list of positive integers
computes the LCM of all its entries. -/
theorem reduce_lcm_eq (x : Int) (xs : List Int) (hx : 0 < x)
    (hxs : ∀ y ∈ xs, 0 < y) :
    xs.foldl lcm x = ((lcmList ((x :: xs).map Int.toNat) : Nat) : Int) := by
  rw [foldl_lcm_int xs x hx hxs, foldl_natLcm, List.map_cons, lcmList_cons]

/-! ## Claim theorems -/

/-- Claim C1: for every valid input with `steps ≥ 1`, `0 ≤ hits ≤ steps`,
`bias = 0.5` and `rotation = 0`, `generateEuclidPattern` returns a boolean
sequence of length `steps` in which position `i` is true exactly when
`(i * hits) mod steps < hits`; in particular `steps = 16, hits = 4` yields
hits at indices 0, 4, 8, 12, and `steps = 16, hits = 2, rotation = 4`
yields hits at 4 and 12. -/
theorem generateEuclidPattern_base_spec (steps hits : Int)
    (h1 : 1 ≤ steps) (h2 : 0 ≤ hits) (h3 : hits ≤ steps) :
    (generateEuclidPattern steps hits (1/2) 0).length = steps.toNat ∧
    (∀ i : Nat, i < steps.toNat →
      (generateEuclidPattern steps hits (1/2) 0).getD i false =
        decide ((i * hits.toNat) % steps.toNat < hits.toNat)) ∧
    generateEuclidPattern 16 4 (1/2) 0 =
      [true, false, false, false, true, false, false, false,
       true, false, false, false, true, false, false, false] ∧
    generateEuclidPattern 16 2 (1/2) 4 =
      [false, false, false, false, true, false, false, false,
       false, false, false, false, true, false, false, false] := by
  have hval := generateEuclidPattern_valid_eq steps hits (1/2) 0 h1 h2 h3
  rw [if_neg (show ¬((0 : Int) ≠ 0) by simp),
    if_neg (show ¬((1/2 : ℚ) ≠ 1/2) by simp)] at hval
  refine ⟨?_, ?_, by decide, by decide⟩
  · rw [hval, List.length_map, euclidBase_length]
  · intro i hi
    rw [hval, euclidBase, List.map_map, getD_map_range _ _ _ _ hi]
    by_cases hc : (i * hits.toNat) % steps.toNat < hits.toNat <;>
      simp [Function.comp, hc]

/-- Witness for `generateEuclidPattern_base_spec` at `steps = 16`,
`hits = 4`. -/
theorem generateEuclidPattern_base_spec_witness :
    (generateEuclidPattern 16 4 (1/2) 0).length = (16 : Int).toNat ∧
    (generateEuclidPattern 16 4 (1/2) 0).getD 4 false =
      decide ((4 * (4 : Int).toNat) % (16 : Int).toNat < (4 : Int).toNat) :=
  ⟨(generateEuclidPattern_base_spec 16 4 (by decide) (by decide) (by decide)).1,
   (generateEuclidPattern_base_spec 16 4 (by decide) (by decide)
      (by decide)).2.1 4 (by decide)⟩

/-- Claim C2: for every valid `(steps, hits, bias)` with `steps ≥ 1`,
`0 ≤ hits ≤ steps`, `bias ∈ [0, 1]`, the bias-redistribution step
preserves the total hit count of the base pattern. -/
theorem applyHalfBias01_preserves_hits (steps hits : Int) (bias : ℚ)
    (h1 : 1 ≤ steps) (h2 : 0 ≤ hits) (h3 : hits ≤ steps)
    (hb0 : 0 ≤ bias) (hb1 : bias ≤ 1) :
    (applyHalfBias01 (euclidBase steps.toNat hits.toNat) bias).count 1 =
      (euclidBase steps.toNat hits.toNat).count 1 :=
  applyHalfBias01_count _ bias

/-- Witness for `applyHalfBias01_preserves_hits` at
`steps = 8, hits = 3, bias = 0.7`. -/
theorem applyHalfBias01_preserves_hits_witness :
    (applyHalfBias01 (euclidBase (8 : Int).toNat (3 : Int).toNat)
      (7/10)).count 1 =
      (euclidBase (8 : Int).toNat (3 : Int).toNat).count 1 :=
  applyHalfBias01_preserves_hits 8 3 (7/10) (by decide) (by decide)
    (by decide) (by decide) (by decide)

/-- Claim C3 counterexample: advancing from step index 0, the *new* index
is 1 (odd), yet the interval added to `nextEventTime` is
`base * (1 + swingRatio) = 0.1625`, not `base * (1 - swingRatio) = 0.0875`
as the claim's new-index parity rule would require — the code tests the
parity of the index *before* advancing. -/
theorem nextStep_parity_counterexample :
    (nextStep 120 100 16 ⟨0, 0⟩).currentStepIndex % 2 = 1 ∧
    (nextStep 120 100 16 ⟨0, 0⟩).nextEventTime =
      ((60 : ℚ) / 120 / 4) * (1 + 3/10) ∧
    ((60 : ℚ) / 120 / 4) * (1 + 3/10) ≠ ((60 : ℚ) / 120 / 4) * (1 - 3/10) :=
  ⟨rfl, by decide, by decide⟩

/-- Claim C3 (amended): the step interval is `base * (1 + swingRatio)`
when the step index *before* advancing (the step just scheduled) is even
and `base * (1 - swingRatio)` when it is odd, with `base = 60/bpm/4`
(bpm clamped to `[40, 300]`) and
`swingRatio = clamp(swing/100, 0, 1) * 0.30`; at `bpm = 120, swing = 100`
the two intervals are `0.1625 s = 13/80` and `0.0875 s = 7/80`. -/
theorem nextStep_interval_spec (bpm swing : ℚ) (cycleLength : Nat)
    (st : SchedState) :
    (nextStep bpm swing cycleLength st).currentStepIndex =
      (st.currentStepIndex + 1) % max 1 cycleLength ∧
    (nextStep bpm swing cycleLength st).nextEventTime =
      st.nextEventTime + 60 / max 40 (min 300 bpm) / 4 *
        (if st.currentStepIndex % 2 = 0
         then 1 + max 0 (min 1 (swing / 100)) * (3/10)
         else 1 - max 0 (min 1 (swing / 100)) * (3/10)) ∧
    (nextStep 120 100 16 ⟨0, 0⟩).nextEventTime = 13/80 ∧
    (nextStep 120 100 16 ⟨1, 0⟩).nextEventTime = 7/80 := by
  refine ⟨rfl, ?_, by decide, by decide⟩
  show st.nextEventTime + 60 / max 40 (min 300 bpm) / 4 *
      (if st.currentStepIndex % 2 = 0
       then 1 + max 0 (min (3/10) (swing / 100 * (3/10)))
       else 1 - max 0 (min (3/10) (swing / 100 * (3/10)))) = _
  rw [swing_clamp_eq (swing / 100)]

/-- Claim C4: for positive track step counts and a syntactically valid
signature `N/D` with `D ≠ 0`, the aligned cycle length is the LCM of all
track step counts together with
`impliedSteps = max 1 (N * max 1 (floor (16 / D)))`. -/
theorem calculateCycleLength_lcm_spec (tracks : List Track) (ts : String)
    (numerator denominator : Int)
    (hpos : ∀ tr ∈ tracks, 0 < tr.steps)
    (hparse : parseTimeSignature ts = some (numerator, denominator)) :
    calculateCycleLength tracks ts =
      ((lcmList
        ((max 1 (numerator * max 1 ((16 : Int).fdiv denominator))).toNat ::
          tracks.map Track.steps) : Nat) : Int) := by
  have hsig : timeSignatureToSteps ts =
      max 1 (numerator * max 1 ((16 : Int).fdiv denominator)) := by
    rw [timeSignatureToSteps, hparse]
  have hIpos : (0 : Int) <
      max 1 (numerator * max 1 ((16 : Int).fdiv denominator)) :=
    lt_of_lt_of_le one_pos (le_max_left _ _)
  rw [calculateCycleLength, hsig]
  have hfil1 : ((tracks.map (fun track => (track.steps : Int))).filter
      (fun steps => decide (0 < steps))) =
      tracks.map (fun track => (track.steps : Int)) := by
    rw [List.filter_eq_self]
    intro x hx
    rw [List.mem_map] at hx
    obtain ⟨tr, htr, rfl⟩ := hx
    simpa using hpos tr htr
  have hfil2 : ((tracks.map (fun track => (track.steps : Int)) ++
      [max 1 (numerator * max 1 ((16 : Int).fdiv denominator))]).filter
      (fun v => decide (v ≠ 0))) =
      tracks.map (fun track => (track.steps : Int)) ++
        [max 1 (numerator * max 1 ((16 : Int).fdiv denominator))] := by
    rw [List.filter_eq_self]
    intro x hx
    rw [List.mem_append] at hx
    rcases hx with hx | hx
    · rw [List.mem_map] at hx
      obtain ⟨tr, htr, rfl⟩ := hx
      have := hpos tr htr
      simp only [decide_eq_true_eq]
      omega
    · rw [List.mem_singleton] at hx
      subst hx
      simp only [decide_eq_true_eq]
      omega
  rw [hfil1, hfil2]
  cases tracks with
  | nil =>
    rw [List.map_nil, List.nil_append]
    show List.foldl lcm _ [] = _
    rw [reduce_lcm_eq _ [] hIpos (by simp)]
    rw [List.map_cons, List.map_nil, List.map_nil]
  | cons t ts' =>
    have htpos : (0 : Int) < (t.steps : Int) := by
      have := hpos t (List.mem_cons_self t ts')
      exact_mod_cast this
    rw [List.map_cons, List.cons_append]
    show List.foldl lcm _ _ = _
    rw [reduce_lcm_eq _ _ htpos ?hpos2]
    case hpos2 =>
      intro y hy
      rw [List.mem_append] at hy
      rcases hy with hy | hy
      · rw [List.mem_map] at hy
        obtain ⟨tr, htr, rfl⟩ := hy
        have := hpos tr (List.mem_cons_of_mem t htr)
        exact_mod_cast this
      · rw [List.mem_singleton] at hy
        subst hy
        exact hIpos
    congr 1
    rw [List.map_cons, List.map_append, List.map_map, List.map_singleton,
      Int.toNat_natCast, lcmList_cons, lcmList_append_singleton, List.map_cons,
      lcmList_cons, lcmList_cons]
    have hmm : (ts'.map (Int.toNat ∘ fun track => (track.steps : Int))) =
        ts'.map Track.steps := by
      apply List.map_congr_left
      intro tr _
      exact Int.toNat_natCast tr.steps
    rw [hmm, ← Nat.lcm_assoc, Nat.lcm_comm t.steps _, Nat.lcm_assoc]

/-- Witness for `calculateCycleLength_lcm_spec`: tracks of 16 and 8 steps
in 3/4 give a 48-step cycle. -/
theorem calculateCycleLength_lcm_spec_witness :
    calculateCycleLength
      [{ id := "kick", steps := 16, pattern := [], volume := 70,
         muted := false, solo := false },
       { id := "snare", steps := 8, pattern := [], volume := 70,
         muted := false, solo := false }] "3/4" = 48 := by
  rw [calculateCycleLength_lcm_spec
    [{ id := "kick", steps := 16, pattern := [], volume := 70,
       muted := false, solo := false },
     { id := "snare", steps := 8, pattern := [], volume := 70,
       muted := false, solo := false }] "3/4" 3 4 (by decide) (by decide)]
  decide

/-- Claim C5: rotation is a circular shift normalized to `[0, steps)`:
rotations compose additively modulo the length (also for negative
amounts), rotating by the full length is the identity, and rotation never
changes the hit count. -/
theorem rotate_group_action (p : List Nat) (a b : Int) (hp : 1 ≤ p.length) :
    rotate (rotate p a) b = rotate p ((a + b) % (p.length : Int)) ∧
    rotate p (p.length : Int) = p ∧
    (∀ (c : Int) (x : Nat), (rotate p c).count x = p.count x) :=
  ⟨rotate_add_emod p a b (by omega), rotate_full_length p,
   fun c x => rotate_count p c x⟩

/-- Witness for `rotate_group_action` on `[1, 0, 1, 0]` with `a = -3`,
`b = 5`. -/
theorem rotate_group_action_witness :
    rotate (rotate [1, 0, 1, 0] (-3)) 5 =
      rotate [1, 0, 1, 0] ((-3 + 5) % (([1, 0, 1, 0] : List Nat).length : Int)) ∧
    (rotate [1, 0, 1, 0] (-7)).count 1 = ([1, 0, 1, 0] : List Nat).count 1 :=
  ⟨(rotate_group_action [1, 0, 1, 0] (-3) 5 (by decide)).1,
   (rotate_group_action [1, 0, 1, 0] (-3) 5 (by decide)).2.2 (-7) 1⟩

/-- Claim C6: degenerate parameters (`steps ≤ 0`, `hits < 0` or
`hits > steps`) produce an all-false sequence of length `max 0 steps`;
the function is total, so no error is raised. -/
theorem generateEuclidPattern_degenerate (steps hits : Int) (bias : ℚ)
    (rotation : Int) (h : steps ≤ 0 ∨ hits < 0 ∨ hits > steps) :
    generateEuclidPattern steps hits bias rotation =
      List.replicate (max 0 steps).toNat false := by
  rw [generateEuclidPattern, if_pos h]

/-- Witness for `generateEuclidPattern_degenerate` at `steps = -4`. -/
theorem generateEuclidPattern_degenerate_witness :
    generateEuclidPattern (-4) 2 (1/2) 0 =
      List.replicate (max 0 (-4 : Int)).toNat false :=
  generateEuclidPattern_degenerate (-4) 2 (1/2) 0 (Or.inl (by decide))

/-- Claim C7: when the time signature fails to parse as `N/D` (missing or
non-numeric numerator or denominator, or `D = 0`), the implied step count
used for cycle alignment falls back to 16; the parser is total, so no
error is raised. -/
theorem timeSignatureToSteps_fallback (s : String)
    (h : ((splitOnSlash s.data).head?.bind jsParseInt) = none ∨
         (((splitOnSlash s.data).get? 1).bind jsParseInt) = none ∨
         (((splitOnSlash s.data).get? 1).bind jsParseInt) = some 0) :
    timeSignatureToSteps s = 16 := by
  have hp : parseTimeSignature s = none := by
    simp only [parseTimeSignature]
    rcases h with h | h | h
    · rw [h]
    · rw [h]
      cases (splitOnSlash s.data).head?.bind jsParseInt <;> rfl
    · rw [h]
      cases (splitOnSlash s.data).head?.bind jsParseInt <;> rfl
  rw [timeSignatureToSteps, hp]

/-- Witness for `timeSignatureToSteps_fallback` on the zero-denominator
signature `"4/0"`. -/
theorem timeSignatureToSteps_fallback_witness :
    timeSignatureToSteps "4/0" = 16 :=
  timeSignatureToSteps_fallback "4/0" (Or.inr (Or.inr (by decide)))

/-- Claim C8: every trigger the scheduler sends carries the time
`max scheduledTime (now + 0.001)`, strictly greater than the current
clock reading, so the sink never receives a time in the past. -/
theorem schedule_trigger_time_future (tracks : List Track) (step : Nat)
    (time now : ℚ) (trig : Trigger)
    (h : trig ∈ schedule tracks step time now) :
    trig.2.2 = max time (now + 1/1000) ∧ now < trig.2.2 := by
  rw [schedule_eq] at h
  rw [List.mem_map] at h
  obtain ⟨track, _, rfl⟩ := h
  refine ⟨rfl, ?_⟩
  show now < max time (now + 1/1000)
  have h1 : now < now + 1/1000 := by
    have : (0 : ℚ) < 1/1000 := by norm_num
    linarith
  exact lt_of_lt_of_le h1 (le_max_right _ _)

/-- Witness for `schedule_trigger_time_future` on a single unmuted track
firing at step 0 with `time = now = 0`. -/
theorem schedule_trigger_time_future_witness :
    (("kick", (7/10 : ℚ), (1/1000 : ℚ)) : Trigger).2.2 =
      max 0 ((0 : ℚ) + 1/1000) ∧
    (0 : ℚ) < (("kick", (7/10 : ℚ), (1/1000 : ℚ)) : Trigger).2.2 :=
  schedule_trigger_time_future
    [{ id := "kick", steps := 2, pattern := [true, false], volume := 70,
       muted := false, solo := false }] 0 0 0
    ("kick", 7/10, 1/1000) (by decide)

/-- Claim C9: at global step `s` a track is triggered exactly when it is
not muted, its pattern is true at `s % track.steps`, and either no track
is soloed or this track is; the velocity is `volume / 100`. -/
theorem schedule_firing_condition (tracks : List Track) (step : Nat)
    (time now : ℚ) :
    schedule tracks step time now =
      (tracks.filter (fun track =>
        !track.muted && track.pattern.getD (step % track.steps) false &&
          (!(tracks.any (fun tr => tr.solo)) || track.solo))).map
        (fun track => (track.id, track.volume / 100, max time (now + 1/1000))) :=
  schedule_eq tracks step time now

/-- Claim C10 (implicit): on valid `steps`/`hits`, any bias (modelled as
an arbitrary rational, including values outside `[0, 1]`) and any integer
rotation, the pattern has length exactly `steps` and exactly `hits` true
entries; every function on the path is total, so no exception is
thrown. -/
theorem generateEuclidPattern_total_invariants (steps hits : Int) (bias : ℚ)
    (rotation : Int) (h1 : 1 ≤ steps) (h2 : 0 ≤ hits) (h3 : hits ≤ steps) :
    (generateEuclidPattern steps hits bias rotation).length = steps.toNat ∧
    (generateEuclidPattern steps hits bias rotation).count true = hits.toNat := by
  rw [generateEuclidPattern_valid_eq steps hits bias rotation h1 h2 h3]
  have hs : 0 < steps.toNat := by omega
  have hh : hits.toNat ≤ steps.toNat := by omega
  have hbias_len : (if bias ≠ 1/2 then
      applyHalfBias01 (euclidBase steps.toNat hits.toNat) bias
    else euclidBase steps.toNat hits.toNat).length = steps.toNat := by
    by_cases hb : bias ≠ 1/2
    · rw [if_pos hb, applyHalfBias01_length, euclidBase_length]
    · rw [if_neg hb, euclidBase_length]
  have hbias_cnt : (if bias ≠ 1/2 then
      applyHalfBias01 (euclidBase steps.toNat hits.toNat) bias
    else euclidBase steps.toNat hits.toNat).count 1 = hits.toNat := by
    by_cases hb : bias ≠ 1/2
    · rw [if_pos hb, applyHalfBias01_count, euclidBase_count _ _ hs hh]
    · rw [if_neg hb, euclidBase_count _ _ hs hh]
  constructor
  · rw [List.length_map]
    by_cases hr : rotation ≠ 0
    · rw [if_pos hr, rotate_length, hbias_len]
    · rw [if_neg hr, hbias_len]
  · rw [count_true_map_decide]
    by_cases hr : rotation ≠ 0
    · rw [if_pos hr, rotate_count, hbias_cnt]
    · rw [if_neg hr, hbias_cnt]

/-- Witness for `generateEuclidPattern_total_invariants` with an
out-of-range bias (`1.4`) and a negative rotation. -/
theorem generateEuclidPattern_total_invariants_witness :
    (generateEuclidPattern 8 3 (7/5) (-11)).length = (8 : Int).toNat ∧
    (generateEuclidPattern 8 3 (7/5) (-11)).count true = (3 : Int).toNat :=
  generateEuclidPattern_total_invariants 8 3 (7/5) (-11) (by decide)
    (by decide) (by decide)

end EuclidSeq


end
